import Mathlib

/-!
Verification of the `logit` package (`src/logit/logit.go`): a colorizing
adapter around a nested `slog` handler.  The adapter delegates structured
encoding to a child handler that writes into a shared buffer, decodes the
buffer back into a generic key-value mapping, and prints one colorized
console line per record.

The embedding below translates the Go source; the `encoding/json` library
and the `slog` JSON handler are modelled at the level of parse results
(a buffer either holds bytes that parse as a JSON value, holds malformed
bytes, or is empty), which is the granularity at which the adapter code
observes them.
-/

namespace Logit

/-- A JSON value, as produced by decoding the buffer into a generic
key-value mapping (`map[string]any` in the source).  Objects are field
lists; duplicate keys are resolved by `deepDedup` below, mirroring how
`json.Unmarshal` fills a Go map (last occurrence wins). -/
inductive JValue where
  | null
  | bool (b : Bool)
  | num (n : Int)
  | str (s : String)
  | obj (fields : List (String × JValue))

/-- The value of a `slog` attribute: a scalar, the zero `any` value, or a
group of nested attributes. -/
inductive AttrVal where
  | str (s : String)
  | int (n : Int)
  | bool (b : Bool)
  | anyNil
  | group (as : List (String × AttrVal))

/-- A `slog.Attr`: a key paired with a value. -/
abbrev Attr := String × AttrVal

/-- The zero `slog.Attr{}`: empty key, nil any value. -/
def Attr.zero : Attr := ("", AttrVal.anyNil)

/-- `slog.TimeKey`. -/
def timeKey : String := "time"
/-- `slog.LevelKey`. -/
def levelKey : String := "level"
/-- `slog.MessageKey`. -/
def messageKey : String := "msg"

/-- `Attr.isEmpty` from `slog`: key and value are both zero. -/
def attrIsEmpty (a : Attr) : Bool :=
  match a.2 with
  | .anyNil => a.1 == ""
  | _ => false

/-- `emitDefaults` from the source: a `ReplaceAttr` wrapper that replaces
any attribute keyed `time`, `level` or `msg` with the zero attribute and
otherwise defers to `next` (or returns the attribute unchanged when `next`
is absent, i.e. the Go `nil` function). -/
def emitDefaults (next : Option (List String → Attr → Attr)) :
    List String → Attr → Attr :=
  fun groups a =>
    if a.1 = timeKey ∨ a.1 = levelKey ∨ a.1 = messageKey then
      Attr.zero
    else
      match next with
      | none => a
      | some f => f groups a

/-- The `ReplaceAttr` function installed by `NewHandler`:
`emitDefaults(slog.HandlerOptions{}.ReplaceAttr)`, and the zero
`HandlerOptions` has a nil `ReplaceAttr`. -/
def installedRep : List String → Attr → Attr := emitDefaults none

/-- Converts a non-group attribute value to the JSON value the `slog`
JSON handler writes for it. -/
def leafJson : AttrVal → JValue
  | .str s => .str s
  | .int n => .num n
  | .bool b => .bool b
  | .anyNil => .null
  | .group _ => .null

/-- The serialization of an attribute list by the child JSON handler
(`slog` `commonHandler.appendAttr`, specialized to the `ReplaceAttr`
function installed by `NewHandler`): group-valued attributes are not
passed to `ReplaceAttr` (only their members are); a group opens a nested
object under its key, a group with an empty key is inlined, and a group
with no members is elided; non-group attributes are rewritten by
`ReplaceAttr` and dropped when the result is the zero attribute.  Since
`emitDefaults` returns either the zero attribute or its argument, the
replaced attribute is never group-valued, so the specialization is
exact. -/
def appendAttrs (gs : List String) (l : List Attr) : List (String × JValue) :=
  match l with
  | [] => []
  | (k, .group as) :: rest =>
      (match as with
       | [] => []
       | a :: as2 =>
         if k = "" then appendAttrs gs (a :: as2)
         else [(k, .obj (appendAttrs (gs ++ [k]) (a :: as2)))]) ++ appendAttrs gs rest
  | (k, v) :: rest =>
      (let b := installedRep gs (k, v)
       if attrIsEmpty b then [] else [(b.1, leafJson b.2)]) ++ appendAttrs gs rest
termination_by sizeOf l

/-- Spec-side description of the suppression: remove every non-group
attribute keyed `time`, `level` or `msg`, at every group nesting depth;
keep group-valued attributes (they are not subject to replacement),
eliding groups that have no members. -/
def dropSuppressed (l : List Attr) : List Attr :=
  match l with
  | [] => []
  | (k, .group as) :: rest =>
      (match as with
       | [] => []
       | a :: as2 => [(k, AttrVal.group (dropSuppressed (a :: as2)))]) ++
        dropSuppressed rest
  | (k, v) :: rest =>
      (if k = timeKey ∨ k = levelKey ∨ k = messageKey then []
       else [(k, v)]) ++ dropSuppressed rest
termination_by sizeOf l

/-- Spec-side conversion of an attribute list to JSON object fields,
with no suppression: groups become nested objects, a group with an empty
key is inlined, and the zero attribute contributes nothing. -/
def plainFields (l : List Attr) : List (String × JValue) :=
  match l with
  | [] => []
  | (k, .group as) :: rest =>
      (if k = "" then plainFields as
       else [(k, .obj (plainFields as))]) ++ plainFields rest
  | (k, v) :: rest =>
      (if attrIsEmpty (k, v) then [] else [(k, leafJson v)]) ++ plainFields rest
termination_by sizeOf l

/-- Replace the binding of `k` in an association list (or add it at the
end): models overwriting a key in a Go map. -/
def upsert : List (String × JValue) → String → JValue → List (String × JValue)
  | [], k, v => [(k, v)]
  | (k1, v1) :: rest, k, v =>
      if k1 = k then (k, v) :: rest else (k1, v1) :: upsert rest k v

/-- Collapse duplicate keys, later occurrences winning: models how
`json.Unmarshal` fills a Go map. -/
def dedupKeys (l : List (String × JValue)) : List (String × JValue) :=
  l.foldl (fun m kv => upsert m kv.1 kv.2) []

/-- Insert a field into a key-sorted field list. -/
def insertField (f : String × JValue) :
    List (String × JValue) → List (String × JValue)
  | [] => [f]
  | g :: gs => if f.1 < g.1 then f :: g :: gs else g :: insertField f gs

/-- Sort fields by key: models the sorted key order in which
`encoding/json` marshals a Go map. -/
def sortFields : List (String × JValue) → List (String × JValue)
  | [] => []
  | f :: fs => insertField f (sortFields fs)

mutual

/-- Canonicalize a decoded JSON value the way `json.Unmarshal` into
`map[string]any` does: every object becomes a map, so duplicate keys
collapse (last wins) at every depth; the canonical field order is the
sorted key order in which `encoding/json` re-marshals a map. -/
def deepDedup (v : JValue) : JValue :=
  match v with
  | .obj fs => .obj (sortFields (dedupKeys (ddFields fs)))
  | v => v
termination_by sizeOf v

/-- Applies `deepDedup` to every value of a field list. -/
def ddFields (fs : List (String × JValue)) : List (String × JValue) :=
  match fs with
  | [] => []
  | (k, v) :: rest => (k, deepDedup v) :: ddFields rest
termination_by sizeOf fs

end

/-- A wall-clock time of day, the part of `time.Time` observed by the
layout `[15:04:05.000]`. -/
structure LTime where
  hour : Nat
  minute : Nat
  second : Nat
  milli : Nat
deriving DecidableEq

/-- A `slog.Record`: timestamp, numeric severity level, message, and
attribute list. -/
structure LogRecord where
  time : LTime
  level : Int
  msg : String
  attrs : List Attr

/-- Zero-pads a number to two digits, as the `15`, `04` and `05` layout
fields do. -/
def pad2 (n : Nat) : String :=
  if n < 10 then "0" ++ toString n else toString n

/-- Zero-pads a number to three digits, as the `000` layout field does. -/
def pad3 (n : Nat) : String :=
  if n < 10 then "00" ++ toString n
  else if n < 100 then "0" ++ toString n
  else toString n

/-- `r.Time.Format(timeFormat)` with `timeFormat = "[15:04:05.000]"`. -/
def formatTime (t : LTime) : String :=
  "[" ++ pad2 t.hour ++ ":" ++ pad2 t.minute ++ ":" ++ pad2 t.second ++
    "." ++ pad3 t.milli ++ "]"

/-- The sign-forcing decimal rendering `%+d` used by `slog.Level.String`. -/
def signedStr (n : Int) : String :=
  if 0 ≤ n then "+" ++ toString n else toString n

/-- The helper inside `slog.Level.String`: the base name, with the offset
appended when it is nonzero. -/
def levelBase (base : String) (val : Int) : String :=
  if val = 0 then base else base ++ signedStr val

/-- `slog.Level.String()` for the numeric level (`LevelDebug = -4`,
`LevelInfo = 0`, `LevelWarn = 4`, `LevelError = 8`). -/
def levelString (l : Int) : String :=
  if l < 0 then levelBase "DEBUG" (l + 4)
  else if l < 4 then levelBase "INFO" l
  else if l < 8 then levelBase "WARN" (l - 4)
  else levelBase "ERROR" (l - 8)

/-- The `reset` escape constant from the source. -/
def resetSeq : String := "\x1b[0m"

/-- Color constants from the source (only those the adapter uses). -/
def redCode : Int := 31
/-- Color constant `yellow`. -/
def yellowCode : Int := 33
/-- Color constant `blue`. -/
def blueCode : Int := 34
/-- Color constant `lightGray`. -/
def lightGrayCode : Int := 37
/-- Color constant `darkGray`. -/
def darkGrayCode : Int := 90
/-- Color constant `lightGreen`. -/
def lightGreenCode : Int := 92
/-- Color constant `white`. -/
def whiteCode : Int := 97

/-- `withColor` from the source:
`fmt.Sprintf("\033[%sm%s%s", strconv.Itoa(code), s, reset)`. -/
def withColor (code : Int) (s : String) : String :=
  "\x1b[" ++ toString code ++ "m" ++ s ++ resetSeq

/-- JSON string escaping as `encoding/json` performs it for the
characters our model produces. -/
def jsonEscapeChar (c : Char) : String :=
  if c = '"' then "\\\""
  else if c = '\\' then "\\\\"
  else if c = '\n' then "\\n"
  else if c = '\t' then "\\t"
  else String.singleton c

/-- A quoted JSON string literal. -/
def jsonQuote (s : String) : String :=
  "\"" ++ String.join (s.toList.map jsonEscapeChar) ++ "\""

/-- The newline-plus-indentation separator `json.Indent` inserts at a
given nesting depth, for prefix `""` and indent `" "`. -/
def indentNl (depth : Nat) : String :=
  "\n" ++ String.mk (List.replicate depth ' ')

mutual

/-- `json.MarshalIndent(v, "", " ")` on a decoded value: the textual
indented rendering of `v` at a nesting depth. -/
def mIndent (depth : Nat) (v : JValue) : String :=
  match v with
  | .null => "null"
  | .bool b => if b then "true" else "false"
  | .num n => toString n
  | .str s => jsonQuote s
  | .obj [] => "\x7b\x7d"
  | .obj (f :: fs) => "\x7b" ++ mFields (depth + 1) f fs ++ indentNl depth ++ "\x7d"
termination_by sizeOf v

/-- The comma-separated indented field list of an object. -/
def mFields (depth : Nat) (f : String × JValue) (fs : List (String × JValue)) :
    String :=
  match f, fs with
  | (k, v), [] => indentNl depth ++ jsonQuote k ++ ": " ++ mIndent depth v
  | (k, v), g :: gs =>
      indentNl depth ++ jsonQuote k ++ ": " ++ mIndent depth v ++ "," ++
        mFields depth g gs
termination_by sizeOf f + sizeOf fs

end

/-- The shared buffer, seen at the granularity at which the adapter
observes it: empty, holding bytes that parse as a single JSON value, or
holding bytes that do not parse. -/
inductive BufContent where
  | empty
  | data (v : JValue)
  | malformed
deriving Inhabited

/-- Appending bytes to the buffer: appending to empty contents gives the
appended contents; concatenating two nonempty byte runs never forms a
single JSON value accepted by `json.Unmarshal`. -/
def bufAppend : BufContent → BufContent → BufContent
  | .empty, w => w
  | b, .empty => b
  | _, _ => .malformed

/-- `json.Unmarshal(buffer.Bytes(), &childAttrs)` with
`childAttrs : map[string]any`: empty input and malformed input fail; a
JSON object decodes to a map (duplicate keys collapsing, last wins);
JSON `null` leaves the nil map; any other top-level value fails. -/
def unmarshalMap : BufContent → Except String JValue
  | .empty => .error "unexpected end of JSON input"
  | .malformed => .error "invalid character"
  | .data v =>
      match v with
      | .obj fs => .ok (deepDedup (.obj fs))
      | .null => .ok .null
      | _ => .error "cannot unmarshal into map"

/-- An attribute-augmentation or group operation applied to a child
handler (`WithAttrs` / `WithGroup` on the `slog.Handler` interface). -/
inductive Op where
  | attrs (as : List Attr)
  | group (name : String)

/-- The behavior of a child handler: its enabled predicate and, given
the augmentation operations applied to it so far, the bytes its `Handle`
appends to the sink (or the error it returns). -/
structure Beh where
  enabled : Int → Bool
  handleWith : List Op → LogRecord → Except String BufContent

/-- A child `slog.Handler` value: a behavior together with the
augmentation operations applied to it. -/
structure Child where
  beh : Beh
  ops : List Op

/-- `child.WithAttrs(attrs)`. -/
def Child.withAttrs (c : Child) (as : List Attr) : Child :=
  ⟨c.beh, c.ops ++ [Op.attrs as]⟩

/-- `child.WithGroup(name)`. -/
def Child.withGroup (c : Child) (n : String) : Child :=
  ⟨c.beh, c.ops ++ [Op.group n]⟩

/-- `child.Enabled(ctx, level)`. -/
def Child.enabledAt (c : Child) (l : Int) : Bool :=
  c.beh.enabled l

/-- `child.Handle(ctx, r)`: the bytes appended to the shared buffer, or
an error. -/
def Child.handle (c : Child) (r : LogRecord) : Except String BufContent :=
  c.beh.handleWith c.ops r

/-- The built-in attributes the `slog` JSON handler feeds through
`ReplaceAttr` before the record attributes: timestamp, level and
message. -/
def builtinAttrs (r : LogRecord) : List Attr :=
  [(timeKey, AttrVal.str (formatTime r.time)),
   (levelKey, AttrVal.str (levelString r.level)),
   (messageKey, AttrVal.str r.msg)]

/-- The record attributes nested under the `WithGroup` groups and after
the `WithAttrs` attributes accumulated on the JSON handler: attributes
added before a group stay outside it, later operations and the record
attributes go inside; a group with an empty name is a no-op, and a group
that ends up with no fields is elided. -/
def nestOps (gs : List String) : List Op → List Attr → List (String × JValue)
  | [], rattrs => appendAttrs gs rattrs
  | .attrs as :: rest, rattrs => appendAttrs gs as ++ nestOps gs rest rattrs
  | .group g :: rest, rattrs =>
      if g = "" then nestOps gs rest rattrs
      else
        match nestOps (gs ++ [g]) rest rattrs with
        | [] => []
        | f :: fs => [(g, JValue.obj (f :: fs))]

/-- The fields of the JSON object the child JSON handler writes for one
record: the (suppressed) built-ins, then the accumulated attributes and
the record attributes. -/
def recordFields (ops : List Op) (r : LogRecord) : List (String × JValue) :=
  appendAttrs [] (builtinAttrs r) ++ nestOps [] ops r.attrs

/-- The behavior of `slog.NewJSONHandler(buffer, opts)` as wired by
`NewHandler`: enabled at levels at or above the threshold; `Handle`
writes one JSON object per record. -/
def jsonBeh (minLevel : Int) : Beh where
  enabled := fun l => minLevel ≤ l
  handleWith := fun ops r => .ok (.data (.obj (recordFields ops r)))

/-- The adapter from the source.  The Go struct holds pointers to a
shared `bytes.Buffer` and `sync.Mutex`; the embedding keeps their
identities (`bufferId`, `mutId`) in the struct and passes the pointed-to
state explicitly. -/
structure Handler where
  child : Child
  bufferId : Nat
  mutId : Nat

/-- `Enabled` from the source: pure delegation to the child handler. -/
def Handler.Enabled (h : Handler) (l : Int) : Bool :=
  h.child.enabledAt l

/-- `WithAttrs` from the source: a new `Handler` wrapping
`child.WithAttrs(attrs)` with the same buffer and mutex pointers. -/
def Handler.WithAttrs (h : Handler) (attrs : List Attr) : Handler :=
  ⟨h.child.withAttrs attrs, h.bufferId, h.mutId⟩

/-- `WithGroup` from the source: a new `Handler` wrapping
`child.WithGroup(name)` with the same buffer and mutex pointers. -/
def Handler.WithGroup (h : Handler) (name : String) : Handler :=
  ⟨h.child.withGroup name, h.bufferId, h.mutId⟩

/-- The state behind the shared pointers: the buffer contents and
whether the mutex is held. -/
structure LogState where
  buffer : BufContent
  locked : Bool

/-- Observable events of one adapter call, in program order: mutex
acquisition, the child-handler invocation, the decode of the buffer, the
deferred buffer reset and mutex release, and the console print. -/
inductive Ev where
  | lock
  | childHandle
  | decode
  | reset
  | unlock
  | print (line : String)

/-- `extractChildAttrs` from the source: lock the mutex; defer a buffer
reset followed by an unlock; run the child handler (appending its output
to the buffer); on error return the wrapped child failure; otherwise
decode the buffer into a map, returning the wrapped decode failure or
the map.  The deferred reset and unlock run on every exit path. -/
def Handler.extractChildAttrs (h : Handler) (r : LogRecord) (s : LogState) :
    Except String JValue × LogState × List Ev :=
  match h.child.handle r with
  | .error e =>
      (.error ("cannot handle child\x27s attributes: " ++ e),
       ⟨.empty, false⟩, [.lock, .childHandle, .reset, .unlock])
  | .ok w =>
      match unmarshalMap (bufAppend s.buffer w) with
      | .error e =>
          (.error ("cannot unmarshall from buffer to map: " ++ e),
           ⟨.empty, false⟩, [.lock, .childHandle, .decode, .reset, .unlock])
      | .ok m =>
          (.ok m, ⟨.empty, false⟩, [.lock, .childHandle, .decode, .reset, .unlock])

/-- The colorized severity tag computed at the top of `Handle`:
`r.Level.String() + ":"`, colored for the four recognized levels and
left uncolored otherwise. -/
def levelTag (l : Int) : String :=
  let lv := levelString l ++ ":"
  if l = 0 then withColor lightGreenCode lv
  else if l = -4 then withColor blueCode lv
  else if l = 4 then withColor yellowCode lv
  else if l = 8 then withColor redCode lv
  else lv

/-- `Handle` from the source: compute the severity tag, extract the
child attributes (propagating its error), re-encode them with
`json.MarshalIndent` and print one colorized line.  `MarshalIndent` is
total here because a value decoded by `json.Unmarshal` into
`map[string]any` consists only of JSON-representable values, which is
exactly what `JValue` ranges over; the corresponding Go error branch is
therefore modelled as absent. -/
def Handler.Handle (h : Handler) (r : LogRecord) (s : LogState) :
    Except String Unit × LogState × List Ev :=
  let lv := levelTag r.level
  match h.extractChildAttrs r s with
  | (.error e, s2, evs) => (.error e, s2, evs)
  | (.ok m, s2, evs) =>
      let line := withColor lightGrayCode (formatTime r.time) ++ " " ++ lv ++
        " " ++ withColor whiteCode r.msg ++ " " ++
        withColor darkGrayCode (mIndent 0 m) ++ "\n"
      (.ok (), s2, evs ++ [Ev.print line])

/-- `NewHandler` from the source: a fresh empty buffer and mutex, and a
child JSON handler over that buffer with the given threshold and the
`emitDefaults` replacement installed.  The second component is the state
behind the freshly allocated buffer (empty) and mutex (unlocked). -/
def NewHandler (level : Int) : Handler × LogState :=
  (⟨⟨jsonBeh level, []⟩, 0, 0⟩, ⟨.empty, false⟩)

/-- Folds a list of `WithAttrs` calls over a handler. -/
def applyWithAttrs (h : Handler) : List (List Attr) → Handler
  | [] => h
  | as :: rest => applyWithAttrs (h.WithAttrs as) rest

/-- Erases the top-level keys `time`, `level` and `msg` from a decoded
mapping. -/
def eraseSuppressedTop : JValue → JValue
  | .obj fs =>
      .obj (fs.filter
        (fun kv => !(kv.1 == timeKey || kv.1 == levelKey || kv.1 == messageKey)))
  | v => v

/-- The mapping the claim describes, read literally: the original
attributes as a mapping, minus the keys `time`, `level` and `msg`. -/
def specMapNaive (as : List Attr) : JValue :=
  eraseSuppressedTop (deepDedup (.obj (plainFields as)))

/-- The amended mapping: the original attributes with every non-group
`time`/`level`/`msg` attribute removed at every depth, as a mapping. -/
def specMapAmended (as : List Attr) : JValue :=
  deepDedup (.obj (plainFields (dropSuppressed as)))

theorem installedRep_suppressed (gs : List String) (k : String) (v : AttrVal)
    (h : k = timeKey ∨ k = levelKey ∨ k = messageKey) :
    installedRep gs (k, v) = Attr.zero := by
  simp [installedRep, emitDefaults, h]

theorem installedRep_keep (gs : List String) (k : String) (v : AttrVal)
    (h : ¬(k = timeKey ∨ k = levelKey ∨ k = messageKey)) :
    installedRep gs (k, v) = (k, v) := by
  simp [installedRep, emitDefaults, h]

/-- The round-trip core: serializing an attribute list through the child
JSON handler with the installed suppression produces exactly the fields
of the suppressed attribute list, independently of the group path. -/
theorem appendAttrs_spec (gs : List String) (l : List Attr) :
    appendAttrs gs l = plainFields (dropSuppressed l) := by
  induction gs, l using appendAttrs.induct with
  | case1 gs => simp [appendAttrs, dropSuppressed, plainFields]
  | case2 gs k as rest hgrp ihrest =>
    cases as with
    | nil => simp [appendAttrs, dropSuppressed, ihrest]
    | cons a as2 =>
      obtain ⟨ih1, ih2⟩ := hgrp
      by_cases hk : k = ""
      · simp [appendAttrs, dropSuppressed, plainFields, hk, ih1, ihrest]
      · simp [appendAttrs, dropSuppressed, plainFields, hk, ih2, ihrest]
  | case3 gs k v rest hng ihrest =>
    by_cases hs : k = timeKey ∨ k = levelKey ∨ k = messageKey
    · cases v with
      | group as => exact absurd rfl (hng as)
      | str s =>
        simp [appendAttrs, dropSuppressed, plainFields,
          installedRep_suppressed gs _ _ hs, hs, attrIsEmpty, Attr.zero, ihrest]
      | int n =>
        simp [appendAttrs, dropSuppressed, plainFields,
          installedRep_suppressed gs _ _ hs, hs, attrIsEmpty, Attr.zero, ihrest]
      | bool b =>
        simp [appendAttrs, dropSuppressed, plainFields,
          installedRep_suppressed gs _ _ hs, hs, attrIsEmpty, Attr.zero, ihrest]
      | anyNil =>
        simp [appendAttrs, dropSuppressed, plainFields,
          installedRep_suppressed gs _ _ hs, hs, attrIsEmpty, Attr.zero, ihrest]
    · cases v with
      | group as => exact absurd rfl (hng as)
      | str s =>
        simp [appendAttrs, dropSuppressed, plainFields,
          installedRep_keep gs _ _ hs, hs, attrIsEmpty, ihrest]
      | int n =>
        simp [appendAttrs, dropSuppressed, plainFields,
          installedRep_keep gs _ _ hs, hs, attrIsEmpty, ihrest]
      | bool b =>
        simp [appendAttrs, dropSuppressed, plainFields,
          installedRep_keep gs _ _ hs, hs, attrIsEmpty, ihrest]
      | anyNil =>
        simp [appendAttrs, dropSuppressed, plainFields,
          installedRep_keep gs _ _ hs, hs, attrIsEmpty, ihrest]

/-- Serialization distributes over attribute-list concatenation. -/
theorem appendAttrs_append (gs : List String) (l1 l2 : List Attr) :
    appendAttrs gs (l1 ++ l2) = appendAttrs gs l1 ++ appendAttrs gs l2 := by
  induction gs, l1 using appendAttrs.induct with
  | case1 gs => simp [appendAttrs]
  | case2 gs k as rest _ ihrest =>
    cases as with
    | nil => simp [appendAttrs, ihrest]
    | cons a as2 => simp [appendAttrs, ihrest]
  | case3 gs k v rest hng ihrest =>
    cases v with
    | group as => exact absurd rfl (hng as)
    | str s => simp [appendAttrs, ihrest]
    | int n => simp [appendAttrs, ihrest]
    | bool b => simp [appendAttrs, ihrest]
    | anyNil => simp [appendAttrs, ihrest]

/-- The built-in timestamp, level and message attributes are all
suppressed by the installed replacement. -/
theorem builtins_suppressed (r : LogRecord) :
    appendAttrs [] (builtinAttrs r) = [] := by
  simp [builtinAttrs, appendAttrs, installedRep, emitDefaults,
    timeKey, levelKey, messageKey, attrIsEmpty, Attr.zero]

/-- With only `WithAttrs` operations accumulated, the record fields are
the serialization of the accumulated attributes followed by the record
attributes. -/
theorem nestOps_attrsOnly (gs : List String) (pres : List (List Attr))
    (rattrs : List Attr) :
    nestOps gs (pres.map Op.attrs) rattrs =
      appendAttrs gs (pres.flatten ++ rattrs) := by
  induction pres with
  | nil => simp [nestOps]
  | cons as rest ih => simp [nestOps, ih, appendAttrs_append]

/-- Folding `WithAttrs` calls appends the corresponding operations to
the child, leaving the behavior and the shared identities unchanged. -/
theorem applyWithAttrs_spec (h : Handler) (pres : List (List Attr)) :
    applyWithAttrs h pres =
      ⟨⟨h.child.beh, h.child.ops ++ pres.map Op.attrs⟩, h.bufferId, h.mutId⟩ := by
  induction pres generalizing h with
  | nil => simp [applyWithAttrs]
  | cons as rest ih =>
    simp [applyWithAttrs, ih, Handler.WithAttrs, Child.withAttrs]

/-- A key is one of the three suppressed keys. -/
def suppressedName (k : String) : Prop :=
  k = timeKey ∨ k = levelKey ∨ k = messageKey

/-- No group-valued attribute in the tree uses a suppressed key (group
attributes are not passed through `ReplaceAttr`, so only they could
carry a suppressed key into the output). -/
def goodTree (l : List Attr) : Prop :=
  match l with
  | [] => True
  | (k, .group as) :: rest => ¬suppressedName k ∧ goodTree as ∧ goodTree rest
  | (_, _) :: rest => goodTree rest
termination_by sizeOf l

mutual

/-- The key `k` appears nowhere in the JSON value, at any depth. -/
def keyFree (k : String) (v : JValue) : Prop :=
  match v with
  | .obj fs => keyFreeF k fs
  | _ => True
termination_by sizeOf v

/-- The key `k` appears nowhere in the field list, at any depth. -/
def keyFreeF (k : String) (fs : List (String × JValue)) : Prop :=
  match fs with
  | [] => True
  | (k1, v) :: rest => k1 ≠ k ∧ keyFree k v ∧ keyFreeF k rest
termination_by sizeOf fs

end

theorem keyFreeF_iff (k : String) (fs : List (String × JValue)) :
    keyFreeF k fs ↔ ∀ p ∈ fs, p.1 ≠ k ∧ keyFree k p.2 := by
  induction fs with
  | nil => simp [keyFreeF]
  | cons p rest ih =>
    obtain ⟨k1, v⟩ := p
    simp [keyFreeF, ih]
    tauto

theorem keyFreeF_append (k : String) (fs gs : List (String × JValue)) :
    keyFreeF k (fs ++ gs) ↔ keyFreeF k fs ∧ keyFreeF k gs := by
  simp only [keyFreeF_iff, List.mem_append]
  constructor
  · intro h
    exact ⟨fun p hp => h p (Or.inl hp), fun p hp => h p (Or.inr hp)⟩
  · rintro ⟨h1, h2⟩ p (hp | hp)
    · exact h1 p hp
    · exact h2 p hp

theorem mem_upsert (p : String × JValue) (m : List (String × JValue))
    (k : String) (v : JValue) (h : p ∈ upsert m k v) :
    p = (k, v) ∨ p ∈ m := by
  induction m with
  | nil => simpa [upsert] using h
  | cons q rest ih =>
    obtain ⟨k1, v1⟩ := q
    by_cases hk : k1 = k
    · simp [upsert, hk] at h
      rcases h with h | h
      · exact Or.inl h
      · exact Or.inr (List.mem_cons_of_mem _ h)
    · simp [upsert, hk] at h
      rcases h with h | h
      · exact Or.inr (by simp [h])
      · rcases ih h with h2 | h2
        · exact Or.inl h2
        · exact Or.inr (List.mem_cons_of_mem _ h2)

theorem mem_dedupKeys (p : String × JValue) (l : List (String × JValue))
    (h : p ∈ dedupKeys l) : p ∈ l := by
  have key : ∀ (l acc : List (String × JValue)),
      p ∈ l.foldl (fun m kv => upsert m kv.1 kv.2) acc → p ∈ acc ∨ p ∈ l := by
    intro l
    induction l with
    | nil => intro acc h2; exact Or.inl h2
    | cons q rest ih =>
      intro acc h2
      rcases ih (upsert acc q.1 q.2) h2 with h3 | h3
      · rcases mem_upsert p acc q.1 q.2 h3 with h4 | h4
        · exact Or.inr (by simp [h4])
        · exact Or.inl h4
      · exact Or.inr (List.mem_cons_of_mem _ h3)
  rcases key l [] h with h2 | h2
  · simp at h2
  · exact h2

theorem mem_insertField (p f : String × JValue) (l : List (String × JValue))
    (h : p ∈ insertField f l) : p = f ∨ p ∈ l := by
  induction l with
  | nil => simpa [insertField] using h
  | cons g rest ih =>
    by_cases hf : f.1 < g.1
    · simp [insertField, hf] at h
      rcases h with h | h | h
      · exact Or.inl h
      · exact Or.inr (by simp [h])
      · exact Or.inr (by simp [h])
    · simp [insertField, hf] at h
      rcases h with h | h
      · exact Or.inr (by simp [h])
      · rcases ih h with h2 | h2
        · exact Or.inl h2
        · exact Or.inr (List.mem_cons_of_mem _ h2)

theorem mem_sortFields (p : String × JValue) (l : List (String × JValue))
    (h : p ∈ sortFields l) : p ∈ l := by
  induction l with
  | nil => simp [sortFields] at h
  | cons f rest ih =>
    rcases mem_insertField p f (sortFields rest) (by simpa [sortFields] using h)
      with h2 | h2
    · simp [h2]
    · exact List.mem_cons_of_mem _ (ih h2)

theorem mem_ddFields (p : String × JValue) (fs : List (String × JValue))
    (h : p ∈ ddFields fs) : ∃ q ∈ fs, p = (q.1, deepDedup q.2) := by
  induction fs with
  | nil => simp [ddFields] at h
  | cons q rest ih =>
    obtain ⟨k1, v1⟩ := q
    simp [ddFields] at h
    rcases h with h | h
    · exact ⟨(k1, v1), by simp, by simp [h]⟩
    · obtain ⟨q2, hq2, hp⟩ := ih h
      exact ⟨q2, List.mem_cons_of_mem _ hq2, hp⟩

/-- Canonicalization cannot introduce a key. -/
theorem keyFree_deepDedup (k : String) (v : JValue) (h : keyFree k v) :
    keyFree k (deepDedup v) := by
  have main : ∀ (n : Nat) (w : JValue), sizeOf w ≤ n → keyFree k w →
      keyFree k (deepDedup w) := by
    intro n
    induction n with
    | zero =>
      intro w hw _
      cases w <;> simp at hw
    | succ n ih =>
      intro w hw hf
      cases w with
      | obj fs =>
        rw [deepDedup, keyFree, keyFreeF_iff]
        intro p hp
        obtain ⟨q, hq, hpq⟩ :=
          mem_ddFields p _ (mem_dedupKeys p _ (mem_sortFields p _ hp))
        have hqf : q.1 ≠ k ∧ keyFree k q.2 := by
          rw [keyFree, keyFreeF_iff] at hf
          exact hf q hq
        subst hpq
        refine ⟨hqf.1, ih q.2 ?_ hqf.2⟩
        have h1 : sizeOf q < sizeOf fs := List.sizeOf_lt_of_mem hq
        have h2 : sizeOf q.2 < sizeOf q := by
          obtain ⟨q1, q2⟩ := q
          simp
        have h3 : sizeOf (JValue.obj fs) = 1 + sizeOf fs := by simp
        omega
      | null => simp [deepDedup, keyFree]
      | bool b => simp [deepDedup, keyFree]
      | num n2 => simp [deepDedup, keyFree]
      | str s => simp [deepDedup, keyFree]
  exact main (sizeOf v) v le_rfl h

theorem goodTree_group (k : String) (as : List (String × AttrVal))
    (rest : List Attr) (h : goodTree ((k, AttrVal.group as) :: rest)) :
    ¬suppressedName k ∧ goodTree as ∧ goodTree rest := by
  rw [goodTree] at h
  exact h

theorem goodTree_cons (a : Attr) (rest : List Attr)
    (h : goodTree (a :: rest)) : goodTree rest := by
  obtain ⟨k1, v⟩ := a
  cases v with
  | group as => exact (goodTree_group _ _ _ h).2.2
  | str s => simp [goodTree] at h; exact h
  | int n => simp [goodTree] at h; exact h
  | bool b => simp [goodTree] at h; exact h
  | anyNil => simp [goodTree] at h; exact h

/-- Suppression removes every suppressed key from the serialized fields,
provided no group-valued attribute uses a suppressed key. -/
theorem keyFreeF_plainFields (k : String) (hk : suppressedName k)
    (l : List Attr) (hg : goodTree l) :
    keyFreeF k (plainFields (dropSuppressed l)) := by
  induction l using dropSuppressed.induct with
  | case1 => simp [dropSuppressed, plainFields, keyFreeF]
  | case2 k1 as rest hgrp ihrest =>
    cases as with
    | nil =>
      simp [dropSuppressed]
      exact ihrest (goodTree_cons _ _ hg)
    | cons a as2 =>
      obtain ⟨hk1, hgas, hgrest⟩ := goodTree_group _ _ _ hg
      have ihas := hgrp hgas
      by_cases hke : k1 = ""
      · subst hke
        simp [dropSuppressed, plainFields, keyFreeF_append]
        exact ⟨ihas, ihrest hgrest⟩
      · simp [dropSuppressed, plainFields, hke, keyFreeF]
        refine ⟨fun he => hk1 (he ▸ hk), ?_, ihrest hgrest⟩
        simpa [keyFree] using ihas
  | case3 k1 v rest hng ihrest =>
    have hgrest : goodTree rest := goodTree_cons _ _ hg
    by_cases hs : k1 = timeKey ∨ k1 = levelKey ∨ k1 = messageKey
    · cases v with
      | group as => exact absurd rfl (hng as)
      | str s =>
        simp [dropSuppressed, hs]
        exact ihrest hgrest
      | int n =>
        simp [dropSuppressed, hs]
        exact ihrest hgrest
      | bool b =>
        simp [dropSuppressed, hs]
        exact ihrest hgrest
      | anyNil =>
        simp [dropSuppressed, hs]
        exact ihrest hgrest
    · have hne : k1 ≠ k := fun he => hs (he ▸ hk)
      cases v with
      | group as => exact absurd rfl (hng as)
      | str s =>
        simp [dropSuppressed, hs, plainFields, attrIsEmpty, keyFreeF, hne,
          keyFree, leafJson]
        exact ihrest hgrest
      | int n =>
        simp [dropSuppressed, hs, plainFields, attrIsEmpty, keyFreeF, hne,
          keyFree, leafJson]
        exact ihrest hgrest
      | bool b =>
        simp [dropSuppressed, hs, plainFields, attrIsEmpty, keyFreeF, hne,
          keyFree, leafJson]
        exact ihrest hgrest
      | anyNil =>
        by_cases hke : k1 = ""
        · subst hke
          simp [dropSuppressed, plainFields, attrIsEmpty, keyFreeF,
            timeKey, levelKey, messageKey]
          exact ihrest hgrest
        · simp [dropSuppressed, hs, plainFields, attrIsEmpty, hke, keyFreeF,
            hne, keyFree, leafJson]
          exact ihrest hgrest

/-- The index of the first event satisfying a predicate in a trace. -/
def firstIdx (p : Ev → Bool) : List Ev → Option Nat
  | [] => none
  | e :: rest => if p e then some 0 else (firstIdx p rest).map (fun n => n + 1)

/-- Recognizes the console-print event. -/
def isPrint : Ev → Bool
  | .print _ => true
  | _ => false

/-- Recognizes the mutex-release event. -/
def isUnlock : Ev → Bool
  | .unlock => true
  | _ => false

/-!
Concurrency model for the critical section of `extractChildAttrs`: each
thread runs, in order, the mutex acquisition, the child-handler write
into the shared buffer (or the failing child call), the decode of the
buffer, and the deferred reset-and-release.  The scheduler interleaves
the threads arbitrarily; the lock step is enabled only while no thread
holds the mutex.
-/

/-- Per-thread control state: before the call, holding the lock, after
the child write, after the decode (remembering which thread had written
the buffer contents it read), after a failed child call, and after the
deferred reset and release. -/
inductive TState where
  | idle
  | acquired
  | written
  | decoded (saw : Option Nat)
  | failed
  | finished (saw : Option Nat)
deriving DecidableEq

/-- Global interleaving state: the mutex holder, the thread that wrote
the current buffer contents (`none` = buffer empty), and every thread's
control state. -/
structure CState where
  lock : Option Nat
  buf : Option Nat
  ts : Nat → TState

/-- Pointwise update of the thread-state map. -/
def setT (f : Nat → TState) (t : Nat) (x : TState) : Nat → TState :=
  fun u => if u = t then x else f u

/-- One scheduler step: some thread executes its next line of
`extractChildAttrs`. -/
inductive CStep : CState → CState → Prop where
  | lock (s : CState) (t : Nat) :
      s.ts t = .idle → s.lock = none →
      CStep s ⟨some t, s.buf, setT s.ts t .acquired⟩
  | write (s : CState) (t : Nat) :
      s.ts t = .acquired →
      CStep s ⟨s.lock, some t, setT s.ts t .written⟩
  | childFail (s : CState) (t : Nat) :
      s.ts t = .acquired →
      CStep s ⟨none, none, setT s.ts t .failed⟩
  | decode (s : CState) (t : Nat) :
      s.ts t = .written →
      CStep s ⟨s.lock, s.buf, setT s.ts t (.decoded s.buf)⟩
  | release (s : CState) (t : Nat) (saw : Option Nat) :
      s.ts t = .decoded saw →
      CStep s ⟨none, none, setT s.ts t (.finished saw)⟩

/-- The initial state: mutex free, buffer empty, all threads idle. -/
def initC : CState := ⟨none, none, fun _ => .idle⟩

/-- Reachability under arbitrary interleaving. -/
def reachC (s : CState) : Prop := Relation.ReflTransGen CStep initC s

/-- A thread is inside the critical section. -/
def inCrit : TState → Prop
  | .acquired => True
  | .written => True
  | .decoded _ => True
  | _ => False

/-- The mutual-exclusion invariant: every thread in the critical section
holds the mutex; the buffer writer is the thread that is past its write;
and every decode saw the contents written by the decoding thread
itself. -/
def CInv (s : CState) : Prop :=
  (∀ t, inCrit (s.ts t) → s.lock = some t) ∧
  (∀ t, s.ts t = .written → s.buf = some t) ∧
  (∀ t saw, s.ts t = .decoded saw → saw = some t) ∧
  (∀ t saw, s.ts t = .finished saw → saw = some t)

theorem CInv_init : CInv initC := by
  refine ⟨?_, ?_, ?_, ?_⟩ <;> intro t <;> simp [initC, inCrit]

theorem setT_same (f : Nat → TState) (t : Nat) (x : TState) :
    setT f t x t = x := by
  simp [setT]

theorem setT_other (f : Nat → TState) (t u : Nat) (x : TState) (h : u ≠ t) :
    setT f t x u = f u := by
  simp [setT, h]

theorem CInv_step (s s2 : CState) (hs : CInv s) (h : CStep s s2) : CInv s2 := by
  obtain ⟨h1, h2, h3, h4⟩ := hs
  cases h with
  | lock t hidle hfree =>
    refine ⟨?_, ?_, ?_, ?_⟩
    · intro u hu
      rcases eq_or_ne u t with he | he
      · subst he
        simp
      · simp [setT, he] at hu
        exact absurd (h1 u hu) (by simp [hfree])
    · intro u hu
      rcases eq_or_ne u t with he | he
      · subst he
        simp [setT] at hu
      · simp [setT, he] at hu
        simpa using h2 u hu
    · intro u saw hu
      rcases eq_or_ne u t with he | he
      · subst he
        simp [setT] at hu
      · simp [setT, he] at hu
        exact h3 u saw hu
    · intro u saw hu
      rcases eq_or_ne u t with he | he
      · subst he
        simp [setT] at hu
      · simp [setT, he] at hu
        exact h4 u saw hu
  | write t hacq =>
    have hlock : s.lock = some t := h1 t (by simp [hacq, inCrit])
    refine ⟨?_, ?_, ?_, ?_⟩
    · intro u hu
      rcases eq_or_ne u t with he | he
      · subst he
        simpa using hlock
      · simp [setT, he] at hu
        simpa using h1 u hu
    · intro u hu
      rcases eq_or_ne u t with he | he
      · subst he
        simp
      · simp [setT, he] at hu
        have hl := h1 u (by simp [hu, inCrit])
        rw [hlock] at hl
        exact absurd (Option.some_injective _ hl.symm) he
    · intro u saw hu
      rcases eq_or_ne u t with he | he
      · subst he
        simp [setT] at hu
      · simp [setT, he] at hu
        exact h3 u saw hu
    · intro u saw hu
      rcases eq_or_ne u t with he | he
      · subst he
        simp [setT] at hu
      · simp [setT, he] at hu
        exact h4 u saw hu
  | childFail t hacq =>
    have hlock : s.lock = some t := h1 t (by simp [hacq, inCrit])
    refine ⟨?_, ?_, ?_, ?_⟩
    · intro u hu
      rcases eq_or_ne u t with he | he
      · subst he
        simp [setT, inCrit] at hu
      · simp [setT, he] at hu
        have hl := h1 u hu
        rw [hlock] at hl
        exact absurd (Option.some_injective _ hl.symm) he
    · intro u hu
      rcases eq_or_ne u t with he | he
      · subst he
        simp [setT] at hu
      · simp [setT, he] at hu
        have hl := h1 u (by simp [hu, inCrit])
        rw [hlock] at hl
        exact absurd (Option.some_injective _ hl.symm) he
    · intro u saw hu
      rcases eq_or_ne u t with he | he
      · subst he
        simp [setT] at hu
      · simp [setT, he] at hu
        exact h3 u saw hu
    · intro u saw hu
      rcases eq_or_ne u t with he | he
      · subst he
        simp [setT] at hu
      · simp [setT, he] at hu
        exact h4 u saw hu
  | decode t hwr =>
    have hlock : s.lock = some t := h1 t (by simp [hwr, inCrit])
    have hbuf : s.buf = some t := h2 t hwr
    refine ⟨?_, ?_, ?_, ?_⟩
    · intro u hu
      rcases eq_or_ne u t with he | he
      · subst he
        simpa using hlock
      · simp [setT, he] at hu
        simpa using h1 u hu
    · intro u hu
      rcases eq_or_ne u t with he | he
      · subst he
        simp [setT] at hu
      · simp [setT, he] at hu
        simpa using h2 u hu
    · intro u saw hu
      rcases eq_or_ne u t with he | he
      · subst he
        simp [setT] at hu
        rw [← hu]
        exact hbuf
      · simp [setT, he] at hu
        exact h3 u saw hu
    · intro u saw hu
      rcases eq_or_ne u t with he | he
      · subst he
        simp [setT] at hu
      · simp [setT, he] at hu
        exact h4 u saw hu
  | release t saw0 hdec =>
    have hlock : s.lock = some t := h1 t (by simp [hdec, inCrit])
    refine ⟨?_, ?_, ?_, ?_⟩
    · intro u hu
      rcases eq_or_ne u t with he | he
      · subst he
        simp [setT, inCrit] at hu
      · simp [setT, he] at hu
        have hl := h1 u hu
        rw [hlock] at hl
        exact absurd (Option.some_injective _ hl.symm) he
    · intro u hu
      rcases eq_or_ne u t with he | he
      · subst he
        simp [setT] at hu
      · simp [setT, he] at hu
        have hl := h1 u (by simp [hu, inCrit])
        rw [hlock] at hl
        exact absurd (Option.some_injective _ hl.symm) he
    · intro u saw hu
      rcases eq_or_ne u t with he | he
      · subst he
        simp [setT] at hu
      · simp [setT, he] at hu
        exact h3 u saw hu
    · intro u saw hu
      rcases eq_or_ne u t with he | he
      · subst he
        simp [setT] at hu
        rw [← hu]
        exact h3 _ saw0 hdec
      · simp [setT, he] at hu
        exact h4 u saw hu

theorem CInv_reach (s : CState) (h : reachC s) : CInv s := by
  induction h with
  | refl => exact CInv_init
  | tail _ hstep ih => exact CInv_step _ _ ih hstep

/-- On an adapter built by `NewHandler` and extended by any sequence of
`WithAttrs` calls, `extractChildAttrs` starting from an empty buffer
succeeds and returns exactly the suppressed attribute mapping. -/
theorem extract_json_ok (lvl : Int) (pres : List (List Attr)) (r : LogRecord)
    (s : LogState) (hbuf : s.buffer = .empty) :
    (applyWithAttrs (NewHandler lvl).1 pres).extractChildAttrs r s =
      (.ok (specMapAmended (pres.flatten ++ r.attrs)), ⟨.empty, false⟩,
       [.lock, .childHandle, .decode, .reset, .unlock]) := by
  have hfields : recordFields (pres.map Op.attrs) r =
      plainFields (dropSuppressed (pres.flatten ++ r.attrs)) := by
    rw [recordFields, builtins_suppressed, nestOps_attrsOnly, appendAttrs_spec]
    simp
  simp [Handler.extractChildAttrs, applyWithAttrs_spec, NewHandler,
    Child.handle, jsonBeh, hbuf, bufAppend, unmarshalMap, hfields,
    specMapAmended]

/-- C1 (amended).  For every attribute set attached to a record or added
via `WithAttrs` (starting from an empty buffer, which `NewHandler`
establishes and every call re-establishes), `Handle` succeeds and its
dark-gray attribute block is the indented rendering of exactly the
mapping of the original attributes after suppression: every non-group
`time`/`level`/`msg` attribute is removed at every depth, while
group-valued attributes are retained (they are not passed through
`ReplaceAttr`), and groups that had no members are elided. -/
theorem c1_attr_block_round_trip (lvl : Int) (pres : List (List Attr))
    (r : LogRecord) (s : LogState) (hbuf : s.buffer = .empty) :
    (applyWithAttrs (NewHandler lvl).1 pres).Handle r s =
      (.ok (), ⟨.empty, false⟩,
        [.lock, .childHandle, .decode, .reset, .unlock,
         .print (withColor lightGrayCode (formatTime r.time) ++ " " ++
           levelTag r.level ++ " " ++ withColor whiteCode r.msg ++ " " ++
           withColor darkGrayCode
             (mIndent 0 (specMapAmended (pres.flatten ++ r.attrs))) ++ "\n")]) := by
  simp [Handler.Handle, extract_json_ok lvl pres r s hbuf]

/-- Witness for C1 at a concrete handler, attribute set and record. -/
theorem c1_attr_block_round_trip_witness :
    (⟨BufContent.empty, false⟩ : LogState).buffer = BufContent.empty ∧
    (applyWithAttrs (NewHandler 0).1 [[("k", AttrVal.str "v")]]).Handle
        ⟨⟨1, 2, 3, 4⟩, 0, "hello", [("a", AttrVal.int 7)]⟩
        ⟨BufContent.empty, false⟩ =
      (.ok (), ⟨.empty, false⟩,
        [.lock, .childHandle, .decode, .reset, .unlock,
         .print (withColor lightGrayCode (formatTime ⟨1, 2, 3, 4⟩) ++ " " ++
           levelTag 0 ++ " " ++ withColor whiteCode "hello" ++ " " ++
           withColor darkGrayCode
             (mIndent 0 (specMapAmended
               ([[("k", AttrVal.str "v")]].flatten ++ [("a", AttrVal.int 7)]))) ++
           "\n")]) :=
  ⟨rfl, c1_attr_block_round_trip 0 [[("k", AttrVal.str "v")]]
    ⟨⟨1, 2, 3, 4⟩, 0, "hello", [("a", AttrVal.int 7)]⟩ ⟨BufContent.empty, false⟩ rfl⟩

/-- Counterexample to C1 as stated: for the single attribute
`Group("level", [("a", "b")])`, the decoded mapping keeps the key
`level` (group attributes are not passed through `ReplaceAttr`), while
the original attributes minus the suppressed `time`/`level`/`msg` keys
form the empty mapping. -/
theorem c1_counterexample :
    ((NewHandler 0).1.extractChildAttrs
        ⟨⟨0, 0, 0, 0⟩, 0, "m", [("level", AttrVal.group [("a", AttrVal.str "b")])]⟩
        (NewHandler 0).2).1 =
      .ok (JValue.obj [("level", JValue.obj [("a", JValue.str "b")])]) ∧
    specMapNaive [("level", AttrVal.group [("a", AttrVal.str "b")])] =
      JValue.obj [] ∧
    JValue.obj [("level", JValue.obj [("a", JValue.str "b")])] ≠ JValue.obj [] := by
  refine ⟨?_, ?_, by simp⟩
  · have := extract_json_ok 0 []
      ⟨⟨0, 0, 0, 0⟩, 0, "m", [("level", AttrVal.group [("a", AttrVal.str "b")])]⟩
      (NewHandler 0).2 rfl
    simp [applyWithAttrs] at this
    rw [this]
    simp [specMapAmended, dropSuppressed, plainFields, timeKey, levelKey,
      messageKey, attrIsEmpty, leafJson, deepDedup, ddFields, dedupKeys,
      upsert, sortFields, insertField]
  · simp [specMapNaive, plainFields, eraseSuppressedTop, attrIsEmpty, leafJson,
      deepDedup, ddFields, dedupKeys, upsert, sortFields, insertField,
      timeKey, levelKey, messageKey]

/-- C9 (amended).  The suppression installed at construction drops every
non-group attribute keyed `time`, `level` or `msg` — including
application-supplied ones, at any group nesting depth — so, as long as
no group-valued attribute itself uses one of those keys, the suppressed
keys appear nowhere in the decoded mapping. -/
theorem c9_key_suppression (lvl : Int) (pres : List (List Attr))
    (r : LogRecord) (s : LogState) (hbuf : s.buffer = .empty)
    (hgood : goodTree (pres.flatten ++ r.attrs))
    (k : String) (hk : suppressedName k) :
    ∃ m, ((applyWithAttrs (NewHandler lvl).1 pres).extractChildAttrs r s).1
        = .ok m ∧ keyFree k m := by
  refine ⟨specMapAmended (pres.flatten ++ r.attrs), ?_, ?_⟩
  · rw [extract_json_ok lvl pres r s hbuf]
  · rw [specMapAmended]
    refine keyFree_deepDedup _ _ ?_
    rw [keyFree]
    exact keyFreeF_plainFields k hk _ hgood

/-- Witness for C9: a record carrying user attributes keyed `msg` at the
top level and `time` inside a group; both are suppressed. -/
theorem c9_key_suppression_witness :
    (⟨BufContent.empty, false⟩ : LogState).buffer = BufContent.empty ∧
    goodTree ([].flatten ++
      [("msg", AttrVal.str "secret"),
       ("g", AttrVal.group [("time", AttrVal.int 1)])]) ∧
    suppressedName "msg" ∧
    (∃ m, ((applyWithAttrs (NewHandler 0).1 []).extractChildAttrs
        ⟨⟨0, 0, 0, 0⟩, 0, "m",
          [("msg", AttrVal.str "secret"),
           ("g", AttrVal.group [("time", AttrVal.int 1)])]⟩
        ⟨BufContent.empty, false⟩).1 = .ok m ∧ keyFree "msg" m) := by
  refine ⟨rfl, ?_, Or.inr (Or.inr rfl), ?_⟩
  · simp [goodTree, suppressedName, timeKey, levelKey, messageKey]
  · exact c9_key_suppression 0 []
      ⟨⟨0, 0, 0, 0⟩, 0, "m",
        [("msg", AttrVal.str "secret"),
         ("g", AttrVal.group [("time", AttrVal.int 1)])]⟩
      ⟨BufContent.empty, false⟩ rfl
      (by simp [goodTree, suppressedName, timeKey, levelKey, messageKey])
      "msg" (Or.inr (Or.inr rfl))

/-- Counterexample to C9 as stated: an application-supplied attribute
keyed `msg` with a group value is not dropped — it survives into the
decoded mapping. -/
theorem c9_counterexample :
    ((NewHandler 0).1.extractChildAttrs
        ⟨⟨0, 0, 0, 0⟩, 0, "m", [("msg", AttrVal.group [("a", AttrVal.str "b")])]⟩
        (NewHandler 0).2).1 =
      .ok (JValue.obj [("msg", JValue.obj [("a", JValue.str "b")])]) ∧
    ¬keyFree messageKey (JValue.obj [("msg", JValue.obj [("a", JValue.str "b")])]) := by
  constructor
  · have := extract_json_ok 0 []
      ⟨⟨0, 0, 0, 0⟩, 0, "m", [("msg", AttrVal.group [("a", AttrVal.str "b")])]⟩
      (NewHandler 0).2 rfl
    simp [applyWithAttrs] at this
    rw [this]
    simp [specMapAmended, dropSuppressed, plainFields, timeKey, levelKey,
      messageKey, attrIsEmpty, leafJson, deepDedup, ddFields, dedupKeys,
      upsert, sortFields, insertField]
  · intro hf
    rw [keyFree, keyFreeF] at hf
    exact hf.1 rfl

/-- A child handler whose `Handle` always fails (e.g. sink unavailable). -/
def failBeh : Beh where
  enabled := fun _ => true
  handleWith := fun _ _ => .error "sink unavailable"

/-- A child handler whose `Handle` writes bytes that do not parse. -/
def malformedBeh : Beh where
  enabled := fun _ => true
  handleWith := fun _ _ => .ok .malformed

/-- C2.  `Handle` has exactly two failure modes: every error it returns
carries either the child-failure prefix or the decode-failure prefix,
and in either case no print event occurs; both modes are reachable. -/
theorem c2_failure_modes :
    (∀ (h : Handler) (r : LogRecord) (s : LogState) (e : String),
        (h.Handle r s).1 = .error e →
          ((∃ e0, e = "cannot handle child\x27s attributes: " ++ e0) ∨
           (∃ e0, e = "cannot unmarshall from buffer to map: " ++ e0)) ∧
          ∀ line, Ev.print line ∉ (h.Handle r s).2.2) ∧
    (∃ (h : Handler) (r : LogRecord) (s : LogState) (e0 : String),
        (h.Handle r s).1 = .error ("cannot handle child\x27s attributes: " ++ e0)) ∧
    (∃ (h : Handler) (r : LogRecord) (s : LogState) (e0 : String),
        (h.Handle r s).1 = .error ("cannot unmarshall from buffer to map: " ++ e0)) := by
  refine ⟨?_, ?_, ?_⟩
  · intro h r s e he
    cases hc : h.child.handle r with
    | error e1 =>
        simp [Handler.Handle, Handler.extractChildAttrs, hc] at he ⊢
        exact Or.inl ⟨e1, he.symm⟩
    | ok w =>
      cases hm : unmarshalMap (bufAppend s.buffer w) with
      | error e2 =>
          simp [Handler.Handle, Handler.extractChildAttrs, hc, hm] at he ⊢
          exact Or.inr ⟨e2, he.symm⟩
      | ok m =>
          simp [Handler.Handle, Handler.extractChildAttrs, hc, hm] at he
  · exact ⟨⟨⟨failBeh, []⟩, 0, 0⟩, ⟨⟨0, 0, 0, 0⟩, 0, "", []⟩,
      ⟨BufContent.empty, false⟩, "sink unavailable", rfl⟩
  · exact ⟨⟨⟨malformedBeh, []⟩, 0, 0⟩, ⟨⟨0, 0, 0, 0⟩, 0, "", []⟩,
      ⟨BufContent.empty, false⟩, "invalid character", rfl⟩

/-- Witness for C2 at a concrete failing child handler. -/
theorem c2_failure_modes_witness :
    ((⟨⟨failBeh, []⟩, 0, 0⟩ : Handler).Handle ⟨⟨0, 0, 0, 0⟩, 0, "", []⟩
        ⟨BufContent.empty, false⟩).1 =
      .error ("cannot handle child\x27s attributes: " ++ "sink unavailable") ∧
    (((∃ e0, "cannot handle child\x27s attributes: " ++ "sink unavailable" =
          "cannot handle child\x27s attributes: " ++ e0) ∨
       (∃ e0, "cannot handle child\x27s attributes: " ++ "sink unavailable" =
          "cannot unmarshall from buffer to map: " ++ e0)) ∧
      ∀ line, Ev.print line ∉
        ((⟨⟨failBeh, []⟩, 0, 0⟩ : Handler).Handle ⟨⟨0, 0, 0, 0⟩, 0, "", []⟩
          ⟨BufContent.empty, false⟩).2.2) :=
  ⟨rfl, c2_failure_modes.1 ⟨⟨failBeh, []⟩, 0, 0⟩ ⟨⟨0, 0, 0, 0⟩, 0, "", []⟩
    ⟨BufContent.empty, false⟩ _ rfl⟩

/-- C3.  After every `extractChildAttrs` and every `Handle` call, on any
outcome, the deferred block has run: the shared buffer is empty and the
mutex is released; `NewHandler` establishes the same state at
construction, so the buffer-empty state holds outside every critical
section (the state is shared by all derived instances, which carry the
same buffer and mutex identities). -/
theorem c3_reset_and_release (h : Handler) (r : LogRecord) (s : LogState)
    (lvl : Int) :
    ((h.extractChildAttrs r s).2.1.buffer = BufContent.empty ∧
      (h.extractChildAttrs r s).2.1.locked = false) ∧
    ((h.Handle r s).2.1.buffer = BufContent.empty ∧
      (h.Handle r s).2.1.locked = false) ∧
    ((NewHandler lvl).2.buffer = BufContent.empty ∧
      (NewHandler lvl).2.locked = false) := by
  cases hc : h.child.handle r with
  | error e1 =>
      simp [Handler.Handle, Handler.extractChildAttrs, hc, NewHandler]
  | ok w =>
    cases hm : unmarshalMap (bufAppend s.buffer w) with
    | error e2 =>
        simp [Handler.Handle, Handler.extractChildAttrs, hc, hm, NewHandler]
    | ok m =>
        simp [Handler.Handle, Handler.extractChildAttrs, hc, hm, NewHandler]

/-- C4.  On success, `Handle` prints exactly one line: the light-gray
`[HH:MM:SS.mmm]` timestamp, the severity tag, the white message and the
dark-gray indented attribute block, space-separated in that order, each
colorized segment wrapped in an ANSI escape and closed by the reset
sequence; the tag is blue for debug, light green for info, yellow for
warn, red for error, and an unrecognized severity is the uncolored
`slog` level name followed by a colon. -/
theorem c4_line_format (h : Handler) (r : LogRecord) (s : LogState)
    (hok : (h.Handle r s).1 = .ok ()) :
    (∃ m, (h.extractChildAttrs r s).1 = .ok m ∧
      (h.Handle r s).2.2 = (h.extractChildAttrs r s).2.2 ++
        [Ev.print (withColor lightGrayCode (formatTime r.time) ++ " " ++
          levelTag r.level ++ " " ++ withColor whiteCode r.msg ++ " " ++
          withColor darkGrayCode (mIndent 0 m) ++ "\n")]) ∧
    levelTag (-4) = "\x1b[34m" ++ "DEBUG:" ++ "\x1b[0m" ∧
    levelTag 0 = "\x1b[92m" ++ "INFO:" ++ "\x1b[0m" ∧
    levelTag 4 = "\x1b[33m" ++ "WARN:" ++ "\x1b[0m" ∧
    levelTag 8 = "\x1b[31m" ++ "ERROR:" ++ "\x1b[0m" ∧
    (∀ s2 : String, withColor lightGrayCode s2 = "\x1b[37m" ++ s2 ++ "\x1b[0m") ∧
    (∀ s2 : String, withColor whiteCode s2 = "\x1b[97m" ++ s2 ++ "\x1b[0m") ∧
    (∀ s2 : String, withColor darkGrayCode s2 = "\x1b[90m" ++ s2 ++ "\x1b[0m") ∧
    ∀ l : Int, l ≠ -4 → l ≠ 0 → l ≠ 4 → l ≠ 8 →
      levelTag l = levelString l ++ ":" := by
  refine ⟨?_, by decide, by decide, by decide, by decide, ?_, ?_, ?_, ?_⟩
  · cases hc : h.child.handle r with
    | error e1 =>
        simp [Handler.Handle, Handler.extractChildAttrs, hc] at hok
    | ok w =>
      cases hm : unmarshalMap (bufAppend s.buffer w) with
      | error e2 =>
          simp [Handler.Handle, Handler.extractChildAttrs, hc, hm] at hok
      | ok m =>
          exact ⟨m, by simp [Handler.extractChildAttrs, hc, hm],
            by simp [Handler.Handle, Handler.extractChildAttrs, hc, hm]⟩
  · intro s2
    rw [withColor, lightGrayCode, resetSeq, show ("\x1b[" ++ toString (37 : Int) ++ "m") = "\x1b[37m" by decide]
  · intro s2
    rw [withColor, whiteCode, resetSeq, show ("\x1b[" ++ toString (97 : Int) ++ "m") = "\x1b[97m" by decide]
  · intro s2
    rw [withColor, darkGrayCode, resetSeq, show ("\x1b[" ++ toString (90 : Int) ++ "m") = "\x1b[90m" by decide]
  · intro l h1 h2 h3 h4
    simp [levelTag, h1, h2, h3, h4]

/-- Witness for C4 at a concrete successful call. -/
theorem c4_line_format_witness :
    (((NewHandler 0).1.Handle ⟨⟨9, 8, 7, 65⟩, 0, "w", []⟩ (NewHandler 0).2).1 =
      .ok ()) ∧
    (∃ m, ((NewHandler 0).1.extractChildAttrs ⟨⟨9, 8, 7, 65⟩, 0, "w", []⟩
        (NewHandler 0).2).1 = .ok m ∧
      ((NewHandler 0).1.Handle ⟨⟨9, 8, 7, 65⟩, 0, "w", []⟩ (NewHandler 0).2).2.2 =
        ((NewHandler 0).1.extractChildAttrs ⟨⟨9, 8, 7, 65⟩, 0, "w", []⟩
          (NewHandler 0).2).2.2 ++
        [Ev.print (withColor lightGrayCode (formatTime ⟨9, 8, 7, 65⟩) ++ " " ++
          levelTag 0 ++ " " ++ withColor whiteCode "w" ++ " " ++
          withColor darkGrayCode (mIndent 0 m) ++ "\n")]) :=
  ⟨rfl, (c4_line_format (NewHandler 0).1 ⟨⟨9, 8, 7, 65⟩, 0, "w", []⟩
    (NewHandler 0).2 rfl).1⟩

/-- C5.  For an adapter built with `NewHandler(threshold)`, `Enabled`
returns true exactly at levels at or above the threshold; on every
adapter it is pure delegation to the child handler (in this pure
embedding it takes no buffer or lock state at all). -/
theorem c5_enabled_threshold (lvl l : Int) (h : Handler) :
    ((NewHandler lvl).1.Enabled l = true ↔ lvl ≤ l) ∧
    h.Enabled l = h.child.enabledAt l := by
  constructor
  · simp [Handler.Enabled, NewHandler, Child.enabledAt, jsonBeh]
  · rfl

/-- C6.  `WithAttrs` and `WithGroup` build a new adapter whose child is
the augmented child and whose buffer and mutex identities are exactly
the shared ones of the receiver; the receiver (an immutable value in
this embedding) is unchanged. -/
theorem c6_derived_sharing (h : Handler) (attrs : List Attr) (name : String) :
    ((h.WithAttrs attrs).child = h.child.withAttrs attrs ∧
      (h.WithAttrs attrs).child.beh = h.child.beh ∧
      (h.WithAttrs attrs).child.ops = h.child.ops ++ [Op.attrs attrs] ∧
      (h.WithAttrs attrs).bufferId = h.bufferId ∧
      (h.WithAttrs attrs).mutId = h.mutId) ∧
    ((h.WithGroup name).child = h.child.withGroup name ∧
      (h.WithGroup name).child.beh = h.child.beh ∧
      (h.WithGroup name).child.ops = h.child.ops ++ [Op.group name] ∧
      (h.WithGroup name).bufferId = h.bufferId ∧
      (h.WithGroup name).mutId = h.mutId) :=
  ⟨⟨rfl, rfl, rfl, rfl, rfl⟩, ⟨rfl, rfl, rfl, rfl, rfl⟩⟩

/-- C7 (amended).  In every successful `Handle` call the console print
is the last event, after the deferred buffer reset and mutex release:
the write happens outside the critical section, not before release. -/
theorem c7_print_after_unlock (h : Handler) (r : LogRecord) (s : LogState)
    (hok : (h.Handle r s).1 = .ok ()) :
    ∃ line, (h.Handle r s).2.2 =
      [.lock, .childHandle, .decode, .reset, .unlock, .print line] := by
  cases hc : h.child.handle r with
  | error e1 =>
      simp [Handler.Handle, Handler.extractChildAttrs, hc] at hok
  | ok w =>
    cases hm : unmarshalMap (bufAppend s.buffer w) with
    | error e2 =>
        simp [Handler.Handle, Handler.extractChildAttrs, hc, hm] at hok
    | ok m =>
        refine ⟨withColor lightGrayCode (formatTime r.time) ++ " " ++
          levelTag r.level ++ " " ++ withColor whiteCode r.msg ++ " " ++
          withColor darkGrayCode (mIndent 0 m) ++ "\n", ?_⟩
        simp [Handler.Handle, Handler.extractChildAttrs, hc, hm]

/-- Witness for C7 (amended) at a concrete successful call. -/
theorem c7_print_after_unlock_witness :
    (((NewHandler 0).1.Handle ⟨⟨1, 1, 1, 1⟩, 0, "w", []⟩ (NewHandler 0).2).1 =
      .ok ()) ∧
    (∃ line, ((NewHandler 0).1.Handle ⟨⟨1, 1, 1, 1⟩, 0, "w", []⟩
        (NewHandler 0).2).2.2 =
      [.lock, .childHandle, .decode, .reset, .unlock, .print line]) :=
  ⟨rfl, c7_print_after_unlock (NewHandler 0).1 ⟨⟨1, 1, 1, 1⟩, 0, "w", []⟩
    (NewHandler 0).2 rfl⟩

/-- Counterexample to C7 as stated: in a concrete successful `Handle`
call, the first mutex-release event is at index 4 and the first print
event is at index 5 — the console write occurs after the release, not
before it. -/
theorem c7_counterexample :
    ((NewHandler 0).1.Handle ⟨⟨0, 0, 0, 0⟩, 0, "m", []⟩ (NewHandler 0).2).1 =
      .ok () ∧
    firstIdx isUnlock
        ((NewHandler 0).1.Handle ⟨⟨0, 0, 0, 0⟩, 0, "m", []⟩ (NewHandler 0).2).2.2
      = some 4 ∧
    firstIdx isPrint
        ((NewHandler 0).1.Handle ⟨⟨0, 0, 0, 0⟩, 0, "m", []⟩ (NewHandler 0).2).2.2
      = some 5 ∧
    ¬(5 : Nat) < 4 :=
  ⟨rfl, rfl, rfl, by omega⟩

/-- C8.  Under arbitrary interleaving of threads running the critical
section of `extractChildAttrs` (lock; child write; decode; deferred
reset and unlock), every decode reads the buffer contents written by
that same thread: buffer contents never interleave across records. -/
theorem c8_no_cross_contamination (s : CState) (hs : reachC s) (t : Nat)
    (saw : Option Nat)
    (h : s.ts t = TState.decoded saw ∨ s.ts t = TState.finished saw) :
    saw = some t := by
  obtain ⟨-, -, h3, h4⟩ := CInv_reach s hs
  rcases h with h | h
  · exact h3 t saw h
  · exact h4 t saw h

/-- The four states of one full run of the critical section by
thread 0. -/
def cSt1 : CState := ⟨some 0, none, setT initC.ts 0 .acquired⟩
/-- State after the child write of thread 0. -/
def cSt2 : CState := ⟨some 0, some 0, setT cSt1.ts 0 .written⟩
/-- State after the decode of thread 0. -/
def cSt3 : CState := ⟨some 0, some 0, setT cSt2.ts 0 (.decoded (some 0))⟩
/-- State after the deferred reset and release of thread 0. -/
def cSt4 : CState := ⟨none, none, setT cSt3.ts 0 (.finished (some 0))⟩

theorem cSt4_reach : reachC cSt4 := by
  have s1 : CStep initC cSt1 := CStep.lock initC 0 rfl rfl
  have s2 : CStep cSt1 cSt2 := CStep.write cSt1 0 rfl
  have s3 : CStep cSt2 cSt3 := CStep.decode cSt2 0 rfl
  have s4 : CStep cSt3 cSt4 := CStep.release cSt3 0 (some 0) rfl
  exact Relation.ReflTransGen.tail
    (Relation.ReflTransGen.tail
      (Relation.ReflTransGen.tail
        (Relation.ReflTransGen.tail Relation.ReflTransGen.refl s1) s2) s3) s4

/-- Witness for C8 on a concrete four-step schedule of thread 0. -/
theorem c8_no_cross_contamination_witness :
    (cSt4.ts 0 = TState.decoded (some 0) ∨ cSt4.ts 0 = TState.finished (some 0)) ∧
    some 0 = some 0 :=
  ⟨Or.inr rfl, c8_no_cross_contamination cSt4 cSt4_reach 0 (some 0) (Or.inr rfl)⟩

/-- C10.  Re-encoding a decoded mapping cannot fail: a value decoded by
`json.Unmarshal` into `map[string]any` consists only of
JSON-representable values (which is what `JValue` ranges over), and
`json.MarshalIndent` is total on those, so `Handle` has exactly three
outcomes: success, a wrapped child failure, or a wrapped decode
failure. -/
theorem c10_reencode_total (h : Handler) (r : LogRecord) (s : LogState) :
    (h.Handle r s).1 = .ok () ∨
    (∃ e, (h.Handle r s).1 =
      .error ("cannot handle child\x27s attributes: " ++ e)) ∨
    (∃ e, (h.Handle r s).1 =
      .error ("cannot unmarshall from buffer to map: " ++ e)) := by
  cases hc : h.child.handle r with
  | error e1 =>
      exact Or.inr (Or.inl ⟨e1,
        by simp [Handler.Handle, Handler.extractChildAttrs, hc]⟩)
  | ok w =>
    cases hm : unmarshalMap (bufAppend s.buffer w) with
    | error e2 =>
        exact Or.inr (Or.inr ⟨e2,
          by simp [Handler.Handle, Handler.extractChildAttrs, hc, hm]⟩)
    | ok m =>
        exact Or.inl (by simp [Handler.Handle, Handler.extractChildAttrs, hc, hm])

end Logit
